import Mathlib

/-!
Shallow embedding of the CMap hash table (src/src/map.c, src/include/map.h).

The C code implements a separate-chaining hash table over opaque `void*`
keys and values, parameterised by injected `hash`, `compare`, `freeKey`
and `freeValue` function pointers.

Modelling decisions:
* A key is an element of an abstract type `K` (C keys passed to the API
  must be non-null; the nullable key argument of the public entry points
  is modelled as `Option K` in the pointer-level wrappers).
* A value is a nullable pointer, modelled as `Option V` (`none` = NULL).
  `mapGet` returns the stored value on a hit and NULL on a miss, so its
  result type is `Option V` with `none` for both NULL-value hits and
  misses, exactly as in C.
* The injected `hash` returns `size_t`; it is modelled as `K → Nat`
  (only `hash key % capacity` is ever used, so the 64-bit width never
  matters for the properties below). `compare` is modelled as
  `K → K → Int`, matched against `0` exactly where the C code tests
  `compare(...) == 0`.
* The bucket array is a `List` of chains; `capacity` is the length of
  the bucket array, which the C code keeps equal to its `capacity`
  field at all times (`mapCreate` and `mapResize` allocate exactly
  `capacity` slots).
* Calls to the injected release hooks `freeKey`/`freeValue` are side
  effects; they are modelled as an explicit event trace returned by the
  mutating operations (`FreeEvt.key k` for `freeKey(k)`,
  `FreeEvt.val v` for `freeValue(v)`).
* `malloc`/`calloc` failure is not modelled: allocation always
  succeeds, so the model exhibits the success path of `mapPut`,
  `mapCreate` and `mapResize`.
* A null table pointer is modelled as `none : Option (Map K V)` in the
  pointer-level wrappers `mapPut`, `mapGet`, `mapRemove`, `mapContains`,
  `mapSize`, `mapClear`, `mapResize`; the `*Live` functions are the
  bodies that run after the null guards.
-/

namespace CMap

/-- One chain node: `struct MapEntry { void* key; void* value; struct MapEntry* next; }`.
The `next` pointer is the tail of the enclosing `List`. -/
structure MapEntry (K V : Type) where
  key : K
  value : Option V
deriving DecidableEq

/-- A call to one of the injected release hooks: `FreeEvt.key k` records
`freeKey(k)`, `FreeEvt.val v` records `freeValue(v)`. -/
inductive FreeEvt (K V : Type) where
  | key : K → FreeEvt K V
  | val : Option V → FreeEvt K V
deriving DecidableEq

/-- `struct Map`: bucket array, size, and the injected hash/compare
functions.  The C struct's `capacity` field always equals the length of
the allocated bucket array, so capacity is represented by
`buckets.length` (see `Map.capacity`).  The `freeKey`/`freeValue`
fields are modelled by the event traces the operations emit. -/
structure Map (K V : Type) where
  buckets : List (List (MapEntry K V))
  size : Nat
  hash : K → Nat
  compare : K → K → Int

variable {K V : Type}

/-- `map->capacity`: the number of bucket slots. -/
def Map.capacity (m : Map K V) : Nat :=
  m.buckets.length

/-- All entries of the table, bucket by bucket, chain order within each
bucket (head first). -/
def Map.entries (m : Map K V) : List (MapEntry K V) :=
  m.buckets.flatten

/-- The chain-scan loop of `mapGet`: first entry with
`compare(entry->key, key) == 0` yields `entry->value`; NULL when the
chain is exhausted. -/
def chainGet (cmp : K → K → Int) (k : K) : List (MapEntry K V) → Option V
  | [] => none
  | e :: rest => if cmp e.key k = 0 then e.value else chainGet cmp k rest

/-- The chain-scan loop of `mapPut`: if some entry matches, replace its
value in place (keeping its key) and return the chain together with the
replaced entry's old value; `none` when no entry matches. -/
def chainReplace (cmp : K → K → Int) (k : K) (v : Option V) :
    List (MapEntry K V) → Option (List (MapEntry K V) × Option V)
  | [] => none
  | e :: rest =>
    if cmp e.key k = 0 then some (⟨e.key, v⟩ :: rest, e.value)
    else match chainReplace cmp k v rest with
      | some (rest', old) => some (e :: rest', old)
      | none => none

/-- The chain-scan loop of `mapRemove`: unlink the first matching entry,
returning the shortened chain and the removed entry; `none` when no
entry matches. -/
def chainRemove (cmp : K → K → Int) (k : K) :
    List (MapEntry K V) → Option (List (MapEntry K V) × MapEntry K V)
  | [] => none
  | e :: rest =>
    if cmp e.key k = 0 then some (rest, e)
    else match chainRemove cmp k rest with
      | some (rest', r) => some (e :: rest', r)
      | none => none

/-- Proof-side companion of the scans: the first entry of the chain
matching `k`. -/
def chainFind (cmp : K → K → Int) (k : K) : List (MapEntry K V) → Option (MapEntry K V)
  | [] => none
  | e :: rest => if cmp e.key k = 0 then some e else chainFind cmp k rest

/-- The body of `mapCreate` after its checks: `capacity` zeroed bucket
slots, `size = 0`. -/
def mapCreateLive (initialCapacity : Nat) (hash : K → Nat) (compare : K → K → Int) :
    Map K V :=
  { buckets := List.replicate initialCapacity []
    size := 0
    hash := hash
    compare := compare }

/-- `mapCreate`: fails (returns NULL) when `initialCapacity == 0`. -/
def mapCreate (initialCapacity : Nat) (hash : K → Nat) (compare : K → K → Int) :
    Option (Map K V) :=
  if initialCapacity = 0 then none
  else some (mapCreateLive initialCapacity hash compare)

/-- The body of `mapPut` after the null guards: hash to a bucket, scan
the chain for a matching key; on a hit free the old value and store the
new one in place, otherwise prepend a fresh entry to the chain head and
increment `size`.  Returns (new table, success flag, release events). -/
def mapPutLive (m : Map K V) (key : K) (value : Option V) :
    Map K V × Bool × List (FreeEvt K V) :=
  let index := m.hash key % m.capacity
  let chain := m.buckets.getD index []
  match chainReplace m.compare key value chain with
  | some (chain', oldVal) =>
      ({ m with buckets := m.buckets.set index chain' }, true, [FreeEvt.val oldVal])
  | none =>
      ({ m with buckets := m.buckets.set index (⟨key, value⟩ :: chain)
                size := m.size + 1 }, true, [])

/-- The body of `mapGet` after the null guards. -/
def mapGetLive (m : Map K V) (key : K) : Option V :=
  chainGet m.compare key (m.buckets.getD (m.hash key % m.capacity) [])

/-- The body of `mapRemove` after the null guards: unlink the first
matching entry of the hashed chain, call `freeKey`/`freeValue` on its
key and value, free it, decrement `size`.  (`map->size--` on `size_t`;
in every reachable state a hit implies `size ≥ 1`, so truncated `Nat`
subtraction is faithful.) -/
def mapRemoveLive (m : Map K V) (key : K) :
    Map K V × Bool × List (FreeEvt K V) :=
  let index := m.hash key % m.capacity
  match chainRemove m.compare key (m.buckets.getD index []) with
  | some (chain', e) =>
      ({ m with buckets := m.buckets.set index chain'
                size := m.size - 1 },
       true, [FreeEvt.key e.key, FreeEvt.val e.value])
  | none => (m, false, [])

/-- `mapContains(map, key) := mapGet(map, key) != NULL`, on a live table. -/
def mapContainsLive (m : Map K V) (key : K) : Bool :=
  (mapGetLive m key).isSome

/-- The body of `mapClear` after the null guard: walk every chain
releasing each entry's key and value (in that order), reset every slot
to empty and `size` to 0.  The C loop runs over `i < capacity`, which is
exactly the bucket-array length. -/
def mapClearLive (m : Map K V) : Map K V × List (FreeEvt K V) :=
  ({ m with buckets := m.buckets.map (fun _ => []), size := 0 },
   m.buckets.flatMap (fun chain =>
     chain.flatMap (fun e => [FreeEvt.key e.key, FreeEvt.val e.value])))

/-- One step of the rehash loop of `mapResize`: push `e` onto the head
of the new bucket `hash(e.key) % newCapacity`. -/
def rehashStep (hash : K → Nat) (newCapacity : Nat)
    (nb : List (List (MapEntry K V))) (e : MapEntry K V) :
    List (List (MapEntry K V)) :=
  let i := hash e.key % newCapacity
  nb.set i (e :: nb.getD i [])

/-- The body of `mapResize` after the null guard: reject
`newCapacity == 0` and `newCapacity < size`; otherwise move every entry
(in bucket order, chain order) onto the head of its new bucket
`hash(key) % newCapacity`, then install the new array.  `size` is
untouched; no release hook runs. -/
def mapResizeLive (m : Map K V) (newCapacity : Nat) : Map K V × Bool :=
  if newCapacity = 0 ∨ newCapacity < m.size then (m, false)
  else
    let newBuckets :=
      m.buckets.foldl
        (fun nb chain => chain.foldl (rehashStep m.hash newCapacity) nb)
        (List.replicate newCapacity [])
    ({ m with buckets := newBuckets }, true)

/-- `mapPut` with the C null guards: `if (!map || !key) return false;`. -/
def mapPut (m : Option (Map K V)) (key : Option K) (value : Option V) :
    Option (Map K V) × Bool × List (FreeEvt K V) :=
  match m, key with
  | some t, some k => let r := mapPutLive t k value; (some r.1, r.2.1, r.2.2)
  | _, _ => (m, false, [])

/-- `mapGet` with the C null guards: `if (!map || !key) return NULL;`. -/
def mapGet (m : Option (Map K V)) (key : Option K) : Option V :=
  match m, key with
  | some t, some k => mapGetLive t k
  | _, _ => none

/-- `mapRemove` with the C null guards. -/
def mapRemove (m : Option (Map K V)) (key : Option K) :
    Option (Map K V) × Bool × List (FreeEvt K V) :=
  match m, key with
  | some t, some k => let r := mapRemoveLive t k; (some r.1, r.2.1, r.2.2)
  | _, _ => (m, false, [])

/-- `mapContains(map, key) := mapGet(map, key) != NULL`. -/
def mapContains (m : Option (Map K V)) (key : Option K) : Bool :=
  (mapGet m key).isSome

/-- `mapSize`: `map ? map->size : 0`. -/
def mapSize (m : Option (Map K V)) : Nat :=
  match m with
  | some t => t.size
  | none => 0

/-- `mapClear` with the C null guard (`if (!map) return;`). -/
def mapClear (m : Option (Map K V)) : Option (Map K V) × List (FreeEvt K V) :=
  match m with
  | some t => let r := mapClearLive t; (some r.1, r.2)
  | none => (none, [])

/-- `mapResize` with the C null guard. -/
def mapResize (m : Option (Map K V)) (newCapacity : Nat) :
    Option (Map K V) × Bool :=
  match m with
  | some t => let r := mapResizeLive t newCapacity; (some r.1, r.2)
  | none => (none, false)

/-- A sequence of `mapPut` calls on a live table. -/
def putList (m : Map K V) (ps : List (K × Option V)) : Map K V :=
  ps.foldl (fun t p => (mapPutLive t p.1 p.2).1) m

/-- The spec's interface contract on the injected hash: equal keys (per
`compare`) hash identically. -/
def HashConsistent (hash : K → Nat) (cmp : K → K → Int) : Prop :=
  ∀ a b : K, cmp a b = 0 → hash a = hash b

/-- Key equality as the code observes it: `compare(a, b) == 0`. -/
def keyEq (cmp : K → K → Int) (a b : K) : Prop :=
  cmp a b = 0

/-- The spec's interface contract on the injected equality: a proper
equivalence relation. -/
def CmpEquiv (cmp : K → K → Int) : Prop :=
  Equivalence (keyEq cmp)

/-- The most recently put value for key `k` in a put sequence, matching
keys per `compare`; `none` when no pair of the sequence matches `k`. -/
def lastValue (cmp : K → K → Int) (k : K) : List (K × Option V) → Option (Option V)
  | [] => none
  | p :: rest =>
    match lastValue cmp k rest with
    | some w => some w
    | none => if cmp k p.1 = 0 then some p.2 else none

/-- The number of distinct keys (per `compare`) of a key sequence, read
left to right, ignoring keys matching one already seen. -/
def newKeyCount (cmp : K → K → Int) (seen : List K) : List K → Nat
  | [] => 0
  | k :: rest =>
    if seen.any (fun s => cmp k s = 0) then newKeyCount cmp seen rest
    else 1 + newKeyCount cmp (k :: seen) rest

/-- The first matching entry of the hashed bucket: the entry every
chain scan (`mapGet`, `mapPut`, `mapRemove`) stops at. -/
def lookupEntry (m : Map K V) (k : K) : Option (MapEntry K V) :=
  chainFind m.compare k (m.buckets.getD (m.hash k % m.capacity) [])

/-- The found-condition of `mapPut`/`mapRemove`: the hashed chain holds
an entry whose key compares equal to `k`. -/
def hasKey (m : Map K V) (k : K) : Bool :=
  (lookupEntry m k).isSome

/-- Bucket-placement invariant: every entry sits in the bucket indexed
by `hash(key) % capacity`. -/
def Placed (m : Map K V) : Prop :=
  ∀ i : Nat, ∀ e ∈ m.buckets.getD i [], m.hash e.key % m.capacity = i

/-- No chain holds two entries with keys comparing equal. -/
def ChainsUnique (m : Map K V) : Prop :=
  ∀ i : Nat, (m.buckets.getD i []).Pairwise (fun e₁ e₂ => m.compare e₁.key e₂.key ≠ 0)

/-- The representation invariant of a live table. -/
def Map.Inv (m : Map K V) : Prop :=
  0 < m.capacity ∧ Placed m ∧ ChainsUnique m

/-- The live table states reachable through the public API. -/
inductive Reachable : Map K V → Prop
  | create (c : Nat) (hash : K → Nat) (cmp : K → K → Int) (h : 0 < c) :
      Reachable (mapCreateLive c hash cmp)
  | put (m : Map K V) (k : K) (v : Option V) :
      Reachable m → Reachable (mapPutLive m k v).1
  | remove (m : Map K V) (k : K) :
      Reachable m → Reachable (mapRemoveLive m k).1
  | clear (m : Map K V) :
      Reachable m → Reachable (mapClearLive m).1
  | resize (m : Map K V) (n : Nat) :
      Reachable m → Reachable (mapResizeLive m n).1


/-- Concrete instantiation used to evaluate the theorems: `Nat` keys,
identity hash. -/
def natHash : Nat → Nat := fun a => a

/-- Concrete instantiation used to evaluate the theorems: comparison
returning 0 exactly on equal `Nat` keys. -/
def natCmp : Nat → Nat → Int := fun a b => if a = b then 0 else 1

/-! ### Basic list helpers -/

theorem getD_set_self {α : Type} {l : List α} {i : Nat} (h : i < l.length) (a d : α) :
    (l.set i a).getD i d = a := by
  rw [List.getD_eq_getElem?_getD, List.getElem?_set_self h]
  rfl

theorem getD_set_ne {α : Type} {l : List α} {i j : Nat} (h : i ≠ j) (a d : α) :
    (l.set i a).getD j d = l.getD j d := by
  rw [List.getD_eq_getElem?_getD, List.getElem?_set_ne h, ← List.getD_eq_getElem?_getD]

theorem getD_map_const_nil {α β : Type} (l : List (List α)) (i : Nat) :
    ((l.map (fun _ => ([] : List β))).getD i []) = [] := by
  rw [List.getD_eq_getElem?_getD, List.getElem?_map]
  cases l[i]? <;> rfl

theorem set_getD_self {α : Type} {l : List α} {i : Nat} (h : i < l.length) (d : α) :
    l.set i (l.getD i d) = l := by
  apply List.ext_getElem?
  intro j
  rw [List.getElem?_set]
  split
  · rename_i hij
    subst hij
    simp [h, List.getD_eq_getElem _ _ h, List.getElem?_eq_getElem h]
  · rfl

/-- Flattening after a `set` is, up to permutation, the new chain plus
the flattening with that slot emptied. -/
theorem flatten_set_perm {α : Type} :
    ∀ (L : List (List α)) (i : Nat), i < L.length → ∀ c : List α,
      ((L.set i c).flatten).Perm (c ++ (L.set i []).flatten)
  | [], i, h, _ => by simp at h
  | l :: L, 0, _, c => by
    simp only [List.set_cons_zero, List.flatten_cons, List.nil_append]
    exact List.Perm.refl _
  | l :: L, i + 1, h, c => by
    simp only [List.set_cons_succ, List.flatten_cons]
    have ih := flatten_set_perm L i (by simpa using h) c
    refine (ih.append_left l).trans ?_
    rw [← List.append_assoc, ← List.append_assoc]
    exact (List.perm_append_comm).append_right _

/-- A bucket array flattens, up to permutation, to any one slot's chain
plus the flattening with that slot emptied. -/
theorem flatten_perm_getD {α : Type} (L : List (List α)) (i : Nat) (h : i < L.length) :
    L.flatten.Perm (L.getD i [] ++ (L.set i []).flatten) := by
  have h2 := flatten_set_perm L i h (L.getD i [])
  rwa [set_getD_self h] at h2

theorem mem_getD_mem_flatten {α : Type} {L : List (List α)} {i : Nat} {a : α}
    (h : a ∈ L.getD i []) : a ∈ L.flatten := by
  rcases Nat.lt_or_ge i L.length with hi | hi
  · rw [List.getD_eq_getElem _ _ hi] at h
    exact List.mem_flatten.2 ⟨L[i], List.getElem_mem hi, h⟩
  · rw [List.getD_eq_default _ _ hi] at h
    cases h

/-! ### Chain-scan lemmas -/

theorem chainFind_eq_none {cmp : K → K → Int} {k : K} :
    ∀ {c : List (MapEntry K V)},
      chainFind cmp k c = none ↔ ∀ e ∈ c, cmp e.key k ≠ 0
  | [] => by simp [chainFind]
  | e :: rest => by
    simp only [chainFind, List.mem_cons, forall_eq_or_imp]
    split
    · rename_i h
      simp [h]
    · rename_i h
      rw [chainFind_eq_none]
      simp [h]

theorem chainFind_decomp {cmp : K → K → Int} {k : K} :
    ∀ {c : List (MapEntry K V)} {e : MapEntry K V},
      chainFind cmp k c = some e →
      cmp e.key k = 0 ∧
        ∃ pre post, c = pre ++ e :: post ∧ ∀ x ∈ pre, cmp x.key k ≠ 0
  | [], e => by simp [chainFind]
  | x :: rest, e => by
    simp only [chainFind]
    split
    · rename_i h
      rintro ⟨rfl⟩
      exact ⟨h, [], rest, rfl, by simp⟩
    · rename_i h
      intro hfind
      obtain ⟨hmatch, pre, post, rfl, hpre⟩ := chainFind_decomp hfind
      refine ⟨hmatch, x :: pre, post, rfl, ?_⟩
      intro y hy
      rcases List.mem_cons.1 hy with rfl | hy'
      · exact h
      · exact hpre y hy'

theorem chainFind_mem {cmp : K → K → Int} {k : K} {c : List (MapEntry K V)}
    {e : MapEntry K V} (h : chainFind cmp k c = some e) : e ∈ c := by
  obtain ⟨-, pre, post, rfl, -⟩ := chainFind_decomp h
  simp

theorem chainFind_append {cmp : K → K → Int} {k : K} :
    ∀ (c₁ c₂ : List (MapEntry K V)),
      chainFind cmp k (c₁ ++ c₂) = (chainFind cmp k c₁).or (chainFind cmp k c₂)
  | [], c₂ => rfl
  | e :: rest, c₂ => by
    simp only [List.cons_append, chainFind]
    split
    · rfl
    · exact chainFind_append rest c₂

theorem chainGet_eq_find (cmp : K → K → Int) (k : K) :
    ∀ c : List (MapEntry K V),
      chainGet cmp k c = (chainFind cmp k c).bind MapEntry.value
  | [] => rfl
  | e :: rest => by
    simp only [chainGet, chainFind]
    split
    · rfl
    · exact chainGet_eq_find cmp k rest

theorem chainReplace_eq_none {cmp : K → K → Int} {k : K} {v : Option V} :
    ∀ {c : List (MapEntry K V)},
      chainReplace cmp k v c = none ↔ chainFind cmp k c = none
  | [] => by simp [chainReplace, chainFind]
  | e :: rest => by
    simp only [chainReplace, chainFind]
    split
    · simp
    · rw [← chainReplace_eq_none (c := rest)]
      cases h : chainReplace cmp k v rest <;> simp [h]

theorem chainReplace_decomp {cmp : K → K → Int} {k : K} {v : Option V} :
    ∀ {c : List (MapEntry K V)} {r : List (MapEntry K V) × Option V},
      chainReplace cmp k v c = some r →
      ∃ pre e post,
        c = pre ++ e :: post ∧ (∀ x ∈ pre, cmp x.key k ≠ 0) ∧ cmp e.key k = 0 ∧
        r = (pre ++ { key := e.key, value := v } :: post, e.value) ∧
        chainFind cmp k c = some e
  | [], r => by simp [chainReplace]
  | x :: rest, r => by
    simp only [chainReplace]
    split
    · rename_i h
      rintro ⟨rfl⟩
      exact ⟨[], x, rest, rfl, by simp, h, rfl, by simp [chainFind, h]⟩
    · rename_i h
      cases hrec : chainReplace cmp k v rest with
      | none => intro habs; cases habs
      | some r' =>
        rintro ⟨rfl⟩
        obtain ⟨pre, e, post, rfl, hpre, hmatch, hr, hfind⟩ := chainReplace_decomp hrec
        refine ⟨x :: pre, e, post, rfl, ?_, hmatch, by simp [hr], by simp [chainFind, h, hfind]⟩
        intro y hy
        rcases List.mem_cons.1 hy with rfl | hy'
        · exact h
        · exact hpre y hy'

theorem chainRemove_eq_none {cmp : K → K → Int} {k : K} :
    ∀ {c : List (MapEntry K V)},
      chainRemove cmp k c = none ↔ chainFind cmp k c = none
  | [] => by simp [chainRemove, chainFind]
  | e :: rest => by
    simp only [chainRemove, chainFind]
    split
    · simp
    · rw [← chainRemove_eq_none (c := rest)]
      cases h : chainRemove cmp k rest <;> simp [h]

theorem chainRemove_decomp {cmp : K → K → Int} {k : K} :
    ∀ {c : List (MapEntry K V)} {r : List (MapEntry K V) × MapEntry K V},
      chainRemove cmp k c = some r →
      ∃ pre e post,
        c = pre ++ e :: post ∧ (∀ x ∈ pre, cmp x.key k ≠ 0) ∧ cmp e.key k = 0 ∧
        r = (pre ++ post, e) ∧ chainFind cmp k c = some e
  | [], r => by simp [chainRemove]
  | x :: rest, r => by
    simp only [chainRemove]
    split
    · rename_i h
      rintro ⟨rfl⟩
      exact ⟨[], x, rest, rfl, by simp, h, rfl, by simp [chainFind, h]⟩
    · rename_i h
      cases hrec : chainRemove cmp k rest with
      | none => intro habs; cases habs
      | some r' =>
        rintro ⟨rfl⟩
        obtain ⟨pre, e, post, rfl, hpre, hmatch, hr, hfind⟩ := chainRemove_decomp hrec
        refine ⟨x :: pre, e, post, rfl, ?_, hmatch, by simp [hr], by simp [chainFind, h, hfind]⟩
        intro y hy
        rcases List.mem_cons.1 hy with rfl | hy'
        · exact h
        · exact hpre y hy'

/-! ### Operation unfolding and field lemmas -/

theorem hash_mk (m : Map K V) (b : List (List (MapEntry K V))) (s : Nat) :
    (Map.mk b s m.hash m.compare).hash = m.hash := rfl

theorem capacity_set (m : Map K V) (i : Nat) (c : List (MapEntry K V)) (s : Nat) :
    (Map.mk (m.buckets.set i c) s m.hash m.compare).capacity = m.capacity := by
  simp [Map.capacity]

theorem index_lt_capacity {m : Map K V} (hc : 0 < m.capacity) (k : K) :
    m.hash k % m.capacity < m.buckets.length :=
  Nat.mod_lt _ hc

theorem mapPutLive_found {m : Map K V} {k : K} {v : Option V}
    {chain' : List (MapEntry K V)} {old : Option V}
    (h : chainReplace m.compare k v (m.buckets.getD (m.hash k % m.capacity) []) =
      some (chain', old)) :
    mapPutLive m k v =
      ({ m with buckets := m.buckets.set (m.hash k % m.capacity) chain' },
       true, [FreeEvt.val old]) := by
  simp only [mapPutLive, h]

theorem mapPutLive_notFound {m : Map K V} {k : K} {v : Option V}
    (h : chainReplace m.compare k v (m.buckets.getD (m.hash k % m.capacity) []) = none) :
    mapPutLive m k v =
      ({ m with
          buckets := m.buckets.set (m.hash k % m.capacity)
            ({ key := k, value := v } :: m.buckets.getD (m.hash k % m.capacity) [])
          size := m.size + 1 }, true, []) := by
  simp only [mapPutLive, h]

theorem mapRemoveLive_found {m : Map K V} {k : K}
    {chain' : List (MapEntry K V)} {e : MapEntry K V}
    (h : chainRemove m.compare k (m.buckets.getD (m.hash k % m.capacity) []) =
      some (chain', e)) :
    mapRemoveLive m k =
      ({ m with buckets := m.buckets.set (m.hash k % m.capacity) chain'
                size := m.size - 1 },
       true, [FreeEvt.key e.key, FreeEvt.val e.value]) := by
  simp only [mapRemoveLive, h]

theorem mapRemoveLive_notFound {m : Map K V} {k : K}
    (h : chainRemove m.compare k (m.buckets.getD (m.hash k % m.capacity) []) = none) :
    mapRemoveLive m k = (m, false, []) := by
  simp only [mapRemoveLive, h]

theorem mapResizeLive_reject {m : Map K V} {n : Nat} (h : n = 0 ∨ n < m.size) :
    mapResizeLive m n = (m, false) := by
  simp only [mapResizeLive, if_pos h]

theorem mapResizeLive_accept {m : Map K V} {n : Nat} (h : ¬(n = 0 ∨ n < m.size)) :
    mapResizeLive m n =
      (Map.mk
        (m.buckets.foldl (fun nb chain => chain.foldl (rehashStep m.hash n) nb)
          (List.replicate n []))
        m.size m.hash m.compare, true) := by
  simp only [mapResizeLive, if_neg h]

theorem put_success (m : Map K V) (k : K) (v : Option V) :
    (mapPutLive m k v).2.1 = true := by
  cases h : chainReplace m.compare k v (m.buckets.getD (m.hash k % m.capacity) []) with
  | some r =>
    obtain ⟨c, o⟩ := r
    rw [mapPutLive_found h]
  | none => rw [mapPutLive_notFound h]

theorem mapGetLive_eq_lookup (m : Map K V) (k : K) :
    mapGetLive m k = (lookupEntry m k).bind MapEntry.value :=
  chainGet_eq_find m.compare k _


/-! ### Key-equality helpers -/

theorem keyEq_refl {cmp : K → K → Int} (h : CmpEquiv cmp) (a : K) : cmp a a = 0 :=
  h.refl a

theorem keyEq_symm {cmp : K → K → Int} (h : CmpEquiv cmp) {a b : K}
    (hab : cmp a b = 0) : cmp b a = 0 :=
  h.symm hab

theorem keyEq_trans {cmp : K → K → Int} (h : CmpEquiv cmp) {a b c : K}
    (hab : cmp a b = 0) (hbc : cmp b c = 0) : cmp a c = 0 :=
  h.trans hab hbc

/-! ### Lookup after put -/

theorem lookupEntry_mk (m : Map K V) (b : List (List (MapEntry K V))) (s : Nat) (k : K) :
    lookupEntry (Map.mk b s m.hash m.compare) k =
      chainFind m.compare k (b.getD (m.hash k % b.length) []) := rfl

/-- Effect of `mapPut` on the entry every later scan of any key finds:
a matching key now maps to the new value (under a matching stored key);
any other key sees an unchanged scan result. -/
theorem lookupEntry_put (m : Map K V) (k k' : K) (v : Option V)
    (hc : 0 < m.capacity) (heq : CmpEquiv m.compare)
    (hh : HashConsistent m.hash m.compare) :
    (m.compare k' k = 0 ∧ ∃ k0, m.compare k0 k = 0 ∧
        lookupEntry (mapPutLive m k v).1 k' = some { key := k0, value := v }) ∨
    (m.compare k' k ≠ 0 ∧
        lookupEntry (mapPutLive m k v).1 k' = lookupEntry m k') := by
  have hlen : m.buckets.length = m.capacity := rfl
  by_cases hk : m.compare k' k = 0
  · left
    refine ⟨hk, ?_⟩
    have hhash : m.hash k' = m.hash k := hh k' k hk
    cases hrep : chainReplace m.compare k v
        (m.buckets.getD (m.hash k % m.capacity) []) with
    | some r =>
      obtain ⟨c, o⟩ := r
      obtain ⟨pre, e, post, hchain, hpre, hmatch, hr, -⟩ := chainReplace_decomp hrep
      obtain ⟨hc1, -⟩ := Prod.mk.injEq .. ▸ hr
      refine ⟨e.key, hmatch, ?_⟩
      rw [mapPutLive_found hrep]
      rw [lookupEntry_mk, List.length_set, hlen, hhash,
        getD_set_self (index_lt_capacity hc k), hc1, chainFind_append]
      have hnone : chainFind m.compare k' pre = none :=
        chainFind_eq_none.2 fun x hx h0 => hpre x hx (keyEq_trans heq h0 hk)
      rw [hnone]
      have hek : m.compare e.key k' = 0 :=
        keyEq_trans heq hmatch (keyEq_symm heq hk)
      simp [chainFind, hek]
    | none =>
      refine ⟨k, keyEq_refl heq k, ?_⟩
      rw [mapPutLive_notFound hrep]
      rw [lookupEntry_mk, List.length_set, hlen, hhash,
        getD_set_self (index_lt_capacity hc k)]
      have hkk : m.compare k k' = 0 := keyEq_symm heq hk
      simp [chainFind, hkk]
  · right
    refine ⟨hk, ?_⟩
    by_cases hi : m.hash k' % m.capacity = m.hash k % m.capacity
    · cases hrep : chainReplace m.compare k v
          (m.buckets.getD (m.hash k % m.capacity) []) with
      | some r =>
        obtain ⟨c, o⟩ := r
        obtain ⟨pre, e, post, hchain, hpre, hmatch, hr, -⟩ := chainReplace_decomp hrep
        obtain ⟨hc1, -⟩ := Prod.mk.injEq .. ▸ hr
        rw [mapPutLive_found hrep]
        rw [lookupEntry_mk, List.length_set, hlen, hi,
          getD_set_self (index_lt_capacity hc k), hc1, chainFind_append]
        rw [lookupEntry, hi, hchain, chainFind_append]
        have hek : m.compare e.key k' ≠ 0 := fun h0 =>
          hk (keyEq_trans heq (keyEq_symm heq h0) hmatch)
        simp [chainFind, hek]
      | none =>
        rw [mapPutLive_notFound hrep]
        rw [lookupEntry_mk, List.length_set, hlen, hi,
          getD_set_self (index_lt_capacity hc k)]
        have hkk : m.compare k k' ≠ 0 := fun h0 => hk (keyEq_symm heq h0)
        rw [lookupEntry, hi]
        simp [chainFind, hkk]
    · cases hrep : chainReplace m.compare k v
          (m.buckets.getD (m.hash k % m.capacity) []) with
      | some r =>
        obtain ⟨c, o⟩ := r
        rw [mapPutLive_found hrep]
        rw [lookupEntry_mk, List.length_set, hlen,
          getD_set_ne (fun h0 => hi h0.symm), lookupEntry]
      | none =>
        rw [mapPutLive_notFound hrep]
        rw [lookupEntry_mk, List.length_set, hlen,
          getD_set_ne (fun h0 => hi h0.symm), lookupEntry]

theorem mapGetLive_put (m : Map K V) (k k' : K) (v : Option V)
    (hc : 0 < m.capacity) (heq : CmpEquiv m.compare)
    (hh : HashConsistent m.hash m.compare) :
    mapGetLive (mapPutLive m k v).1 k' =
      if m.compare k' k = 0 then v else mapGetLive m k' := by
  rcases lookupEntry_put m k k' v hc heq hh with ⟨hk, k0, -, hl⟩ | ⟨hk, hl⟩
  · rw [if_pos hk, mapGetLive_eq_lookup, hl]
    rfl
  · rw [if_neg hk, mapGetLive_eq_lookup, hl, mapGetLive_eq_lookup]

theorem hasKey_put (m : Map K V) (k k' : K) (v : Option V)
    (hc : 0 < m.capacity) (heq : CmpEquiv m.compare)
    (hh : HashConsistent m.hash m.compare) :
    hasKey (mapPutLive m k v).1 k' =
      if m.compare k' k = 0 then true else hasKey m k' := by
  rcases lookupEntry_put m k k' v hc heq hh with ⟨hk, k0, -, hl⟩ | ⟨hk, hl⟩
  · rw [if_pos hk, hasKey, hl]
    rfl
  · rw [if_neg hk, hasKey, hl, hasKey]

theorem size_put (m : Map K V) (k : K) (v : Option V) :
    (mapPutLive m k v).1.size = if hasKey m k then m.size else m.size + 1 := by
  cases hrep : chainReplace m.compare k v
      (m.buckets.getD (m.hash k % m.capacity) []) with
  | some r =>
    obtain ⟨c, o⟩ := r
    obtain ⟨pre, e, post, hchain, hpre, hmatch, hr, hfind⟩ := chainReplace_decomp hrep
    rw [mapPutLive_found hrep]
    have hkey : hasKey m k = true := by
      rw [hasKey, lookupEntry, hfind]
      rfl
    simp [hkey]
  | none =>
    rw [mapPutLive_notFound hrep]
    have hkey : hasKey m k = false := by
      rw [hasKey, lookupEntry, chainReplace_eq_none.1 hrep]
      rfl
    simp [hkey]

theorem put_hash (m : Map K V) (k : K) (v : Option V) :
    (mapPutLive m k v).1.hash = m.hash := by
  cases hrep : chainReplace m.compare k v
      (m.buckets.getD (m.hash k % m.capacity) []) with
  | some r =>
    obtain ⟨c, o⟩ := r
    rw [mapPutLive_found hrep]
  | none => rw [mapPutLive_notFound hrep]

theorem put_compare (m : Map K V) (k : K) (v : Option V) :
    (mapPutLive m k v).1.compare = m.compare := by
  cases hrep : chainReplace m.compare k v
      (m.buckets.getD (m.hash k % m.capacity) []) with
  | some r =>
    obtain ⟨c, o⟩ := r
    rw [mapPutLive_found hrep]
  | none => rw [mapPutLive_notFound hrep]

theorem put_capacity (m : Map K V) (k : K) (v : Option V) :
    (mapPutLive m k v).1.capacity = m.capacity := by
  cases hrep : chainReplace m.compare k v
      (m.buckets.getD (m.hash k % m.capacity) []) with
  | some r =>
    obtain ⟨c, o⟩ := r
    rw [mapPutLive_found hrep]
    simp [Map.capacity]
  | none =>
    rw [mapPutLive_notFound hrep]
    simp [Map.capacity]


/-! ### Put sequences -/

theorem putList_nil (m : Map K V) : putList m [] = m := rfl

theorem putList_cons (m : Map K V) (p : K × Option V) (ps : List (K × Option V)) :
    putList m (p :: ps) = putList (mapPutLive m p.1 p.2).1 ps := rfl

theorem putList_fields (ps : List (K × Option V)) :
    ∀ m : Map K V,
      (putList m ps).hash = m.hash ∧ (putList m ps).compare = m.compare ∧
        (putList m ps).capacity = m.capacity := by
  induction ps with
  | nil => exact fun m => ⟨rfl, rfl, rfl⟩
  | cons p ps ih =>
    intro m
    rw [putList_cons]
    obtain ⟨h1, h2, h3⟩ := ih (mapPutLive m p.1 p.2).1
    exact ⟨h1.trans (put_hash ..), h2.trans (put_compare ..), h3.trans (put_capacity ..)⟩

theorem getD_replicate_nil {α : Type} (c i : Nat) :
    ((List.replicate c ([] : List α)).getD i []) = [] := by
  rcases Nat.lt_or_ge i (List.replicate c ([] : List α)).length with hi | hi
  · rw [List.getD_eq_getElem _ _ hi, List.getElem_replicate]
  · rw [List.getD_eq_default _ _ hi]

theorem hasKey_create (c : Nat) (hsh : K → Nat) (cmp : K → K → Int) (k : K) :
    hasKey (mapCreateLive c hsh cmp : Map K V) k = false := by
  rw [hasKey, lookupEntry]
  show (chainFind cmp k ((List.replicate c []).getD _ [])).isSome = false
  rw [getD_replicate_nil]
  rfl

theorem mapGetLive_create (c : Nat) (hsh : K → Nat) (cmp : K → K → Int) (k : K) :
    mapGetLive (mapCreateLive c hsh cmp : Map K V) k = none := by
  rw [mapGetLive]
  show chainGet cmp k ((List.replicate c []).getD _ []) = none
  rw [getD_replicate_nil]
  rfl

/-- `mapGet` after a sequence of puts yields the most recently put value
for the key, falling back to the original table's answer. -/
theorem mapGetLive_putList (ps : List (K × Option V)) :
    ∀ m : Map K V, 0 < m.capacity → CmpEquiv m.compare →
      HashConsistent m.hash m.compare → ∀ k : K,
      mapGetLive (putList m ps) k =
        match lastValue m.compare k ps with
        | some w => w
        | none => mapGetLive m k := by
  induction ps with
  | nil => intro m _ _ _ k; rfl
  | cons p ps ih =>
    intro m hc heq hh k
    rw [putList_cons]
    have hc' : 0 < (mapPutLive m p.1 p.2).1.capacity := by
      rw [put_capacity]; exact hc
    have heq' : CmpEquiv (mapPutLive m p.1 p.2).1.compare := by
      rw [put_compare]; exact heq
    have hh' : HashConsistent (mapPutLive m p.1 p.2).1.hash
        (mapPutLive m p.1 p.2).1.compare := by
      rw [put_compare, put_hash]; exact hh
    have := ih (mapPutLive m p.1 p.2).1 hc' heq' hh' k
    rw [put_compare] at this
    rw [this, lastValue]
    cases hlast : lastValue m.compare k ps with
    | some w => rfl
    | none =>
      rw [mapGetLive_put m p.1 k p.2 hc heq hh]
      by_cases hk : m.compare k p.1 = 0
      · rw [if_pos hk, if_pos hk]
      · rw [if_neg hk, if_neg hk]

/-- A key scans as present after a put sequence exactly when the
sequence put it or it was present before. -/
theorem hasKey_putList (ps : List (K × Option V)) :
    ∀ m : Map K V, 0 < m.capacity → CmpEquiv m.compare →
      HashConsistent m.hash m.compare → ∀ k : K,
      hasKey (putList m ps) k =
        ((lastValue m.compare k ps).isSome || hasKey m k) := by
  induction ps with
  | nil => intro m _ _ _ k; simp [putList_nil, lastValue]
  | cons p ps ih =>
    intro m hc heq hh k
    rw [putList_cons]
    have hc' : 0 < (mapPutLive m p.1 p.2).1.capacity := by
      rw [put_capacity]; exact hc
    have heq' : CmpEquiv (mapPutLive m p.1 p.2).1.compare := by
      rw [put_compare]; exact heq
    have hh' : HashConsistent (mapPutLive m p.1 p.2).1.hash
        (mapPutLive m p.1 p.2).1.compare := by
      rw [put_compare, put_hash]; exact hh
    have := ih (mapPutLive m p.1 p.2).1 hc' heq' hh' k
    rw [put_compare] at this
    rw [this, lastValue, hasKey_put m p.1 k p.2 hc heq hh]
    cases hlast : lastValue m.compare k ps with
    | some w => simp
    | none =>
      by_cases hk : m.compare k p.1 = 0
      · simp [hk]
      · simp [hk]

/-- `size` after a put sequence counts the new distinct keys, relative
to a list `seen` that over-approximates the table's current keys. -/
theorem size_putList (ps : List (K × Option V)) :
    ∀ (m : Map K V) (seen : List K), 0 < m.capacity → CmpEquiv m.compare →
      HashConsistent m.hash m.compare →
      (∀ k : K, hasKey m k = seen.any (fun s => m.compare k s = 0)) →
      (putList m ps).size = m.size + newKeyCount m.compare seen (ps.map Prod.fst) := by
  induction ps with
  | nil => intro m seen _ _ _ _; rfl
  | cons p ps ih =>
    intro m seen hc heq hh hseen
    rw [putList_cons, List.map_cons, newKeyCount]
    have hc' : 0 < (mapPutLive m p.1 p.2).1.capacity := by
      rw [put_capacity]; exact hc
    have heq' : CmpEquiv (mapPutLive m p.1 p.2).1.compare := by
      rw [put_compare]; exact heq
    have hh' : HashConsistent (mapPutLive m p.1 p.2).1.hash
        (mapPutLive m p.1 p.2).1.compare := by
      rw [put_compare, put_hash]; exact hh
    have hsz := size_put m p.1 p.2
    by_cases hfound : hasKey m p.1 = true
    · have hcond : seen.any (fun s => m.compare p.1 s = 0) = true := by
        rw [← hseen p.1]; exact hfound
      rw [if_pos hcond]
      have hseen' : ∀ k : K, hasKey (mapPutLive m p.1 p.2).1 k =
          seen.any (fun s => (mapPutLive m p.1 p.2).1.compare k s = 0) := by
        intro k
        rw [put_compare, hasKey_put m p.1 k p.2 hc heq hh]
        by_cases hk : m.compare k p.1 = 0
        · rw [if_pos hk]
          obtain ⟨s, hs, hks⟩ := List.any_eq_true.1 hcond
          have : m.compare k s = 0 :=
            keyEq_trans heq hk (of_decide_eq_true hks)
          exact (List.any_eq_true.2 ⟨s, hs, decide_eq_true this⟩).symm
        · rw [if_neg hk]
          exact hseen k
      have := ih (mapPutLive m p.1 p.2).1 seen hc' heq' hh' hseen'
      rw [put_compare] at this
      rw [this, hsz, if_pos hfound]
    · have hfalse : hasKey m p.1 = false := by
        cases h0 : hasKey m p.1 with
        | true => exact absurd h0 hfound
        | false => rfl
      have hcond : seen.any (fun s => m.compare p.1 s = 0) = false := by
        rw [← hseen p.1]; exact hfalse
      rw [if_neg (by rw [hcond]; exact Bool.false_ne_true)]
      have hseen' : ∀ k : K, hasKey (mapPutLive m p.1 p.2).1 k =
          (p.1 :: seen).any (fun s => (mapPutLive m p.1 p.2).1.compare k s = 0) := by
        intro k
        rw [put_compare, hasKey_put m p.1 k p.2 hc heq hh, List.any_cons]
        by_cases hk : m.compare k p.1 = 0
        · rw [if_pos hk]
          simp [hk]
        · rw [if_neg hk, hseen k]
          simp [hk]
      have := ih (mapPutLive m p.1 p.2).1 (p.1 :: seen) hc' heq' hh' hseen'
      rw [put_compare] at this
      rw [this, hsz, if_neg (by rw [hfalse]; exact Bool.false_ne_true)]
      omega


/-! ### The placement and uniqueness invariants -/

theorem placed_create (c : Nat) (hsh : K → Nat) (cmp : K → K → Int) :
    Placed (mapCreateLive c hsh cmp : Map K V) := by
  intro i e he
  have he' : e ∈ (List.replicate c ([] : List (MapEntry K V))).getD i [] := he
  rw [getD_replicate_nil] at he'
  cases he'

theorem chainsUnique_create (c : Nat) (hsh : K → Nat) (cmp : K → K → Int) :
    ChainsUnique (mapCreateLive c hsh cmp : Map K V) := by
  intro i
  show ((List.replicate c ([] : List (MapEntry K V))).getD i []).Pairwise _
  rw [getD_replicate_nil]
  exact List.Pairwise.nil

theorem placed_put {m : Map K V} (k : K) (v : Option V) (hc : 0 < m.capacity)
    (hp : Placed m) : Placed (mapPutLive m k v).1 := by
  cases hrep : chainReplace m.compare k v
      (m.buckets.getD (m.hash k % m.capacity) []) with
  | some r =>
    obtain ⟨c, o⟩ := r
    obtain ⟨pre, e, post, hchain, hpre, hmatch, hr, -⟩ := chainReplace_decomp hrep
    obtain ⟨hc1, -⟩ := Prod.mk.injEq .. ▸ hr
    rw [mapPutLive_found hrep]
    intro j x hx
    have hx' : x ∈ (m.buckets.set (m.hash k % m.capacity) c).getD j [] := hx
    show m.hash x.key % (m.buckets.set (m.hash k % m.capacity) c).length = j
    rw [List.length_set]
    by_cases hj : m.hash k % m.capacity = j
    · subst hj
      rw [getD_set_self (index_lt_capacity hc k), hc1] at hx'
      rcases List.mem_append.1 hx' with hin | hin
      · exact hp _ x (by rw [hchain]; exact List.mem_append.2 (Or.inl hin))
      · rcases List.mem_cons.1 hin with rfl | hin'
        · exact hp _ e (by rw [hchain]; simp)
        · exact hp _ x (by rw [hchain]; simp [hin'])
    · rw [getD_set_ne hj] at hx'
      exact hp j x hx'
  | none =>
    rw [mapPutLive_notFound hrep]
    intro j x hx
    have hx' : x ∈ (m.buckets.set (m.hash k % m.capacity)
        ({ key := k, value := v } :: m.buckets.getD (m.hash k % m.capacity) [])).getD j [] := hx
    show m.hash x.key % (m.buckets.set (m.hash k % m.capacity) _).length = j
    rw [List.length_set]
    by_cases hj : m.hash k % m.capacity = j
    · subst hj
      rw [getD_set_self (index_lt_capacity hc k)] at hx'
      rcases List.mem_cons.1 hx' with rfl | hin'
      · rfl
      · exact hp _ x hin'
    · rw [getD_set_ne hj] at hx'
      exact hp j x hx'

theorem chainsUnique_put {m : Map K V} (k : K) (v : Option V) (hc : 0 < m.capacity)
    (heq : CmpEquiv m.compare) (hu : ChainsUnique m) :
    ChainsUnique (mapPutLive m k v).1 := by
  cases hrep : chainReplace m.compare k v
      (m.buckets.getD (m.hash k % m.capacity) []) with
  | some r =>
    obtain ⟨c, o⟩ := r
    obtain ⟨pre, e, post, hchain, hpre, hmatch, hr, -⟩ := chainReplace_decomp hrep
    obtain ⟨hc1, -⟩ := Prod.mk.injEq .. ▸ hr
    rw [mapPutLive_found hrep]
    intro j
    show ((m.buckets.set (m.hash k % m.capacity) c).getD j []).Pairwise
      (fun e₁ e₂ => m.compare e₁.key e₂.key ≠ 0)
    by_cases hj : m.hash k % m.capacity = j
    · subst hj
      rw [getD_set_self (index_lt_capacity hc k), hc1]
      have horig := hu (m.hash k % m.capacity)
      rw [hchain, List.pairwise_append, List.pairwise_cons] at horig
      obtain ⟨h1, ⟨h2a, h2b⟩, h3⟩ := horig
      rw [List.pairwise_append, List.pairwise_cons]
      refine ⟨h1, ⟨fun y hy => h2a y hy, h2b⟩, ?_⟩
      intro a ha b hb
      rcases List.mem_cons.1 hb with rfl | hb'
      · exact h3 a ha e (by simp)
      · exact h3 a ha b (by simp [hb'])
    · rw [getD_set_ne hj]
      exact hu j
  | none =>
    rw [mapPutLive_notFound hrep]
    intro j
    show ((m.buckets.set (m.hash k % m.capacity) _).getD j []).Pairwise
      (fun e₁ e₂ => m.compare e₁.key e₂.key ≠ 0)
    by_cases hj : m.hash k % m.capacity = j
    · subst hj
      rw [getD_set_self (index_lt_capacity hc k), List.pairwise_cons]
      have hall := chainFind_eq_none.1 (chainReplace_eq_none.1 hrep)
      exact ⟨fun y hy h0 => hall y hy (keyEq_symm heq h0), hu _⟩
    · rw [getD_set_ne hj]
      exact hu j

theorem remove_index_lt {m : Map K V} {k : K}
    {r : List (MapEntry K V) × MapEntry K V}
    (h : chainRemove m.compare k (m.buckets.getD (m.hash k % m.capacity) []) = some r) :
    m.hash k % m.capacity < m.buckets.length := by
  by_contra hge
  rw [List.getD_eq_default _ _ (Nat.le_of_not_lt hge)] at h
  cases h

theorem placed_remove {m : Map K V} (k : K) (hp : Placed m) :
    Placed (mapRemoveLive m k).1 := by
  cases hrem : chainRemove m.compare k
      (m.buckets.getD (m.hash k % m.capacity) []) with
  | none =>
    rw [mapRemoveLive_notFound hrem]
    exact hp
  | some r =>
    obtain ⟨c, e⟩ := r
    obtain ⟨pre, x, post, hchain, hpre, hmatch, hr, -⟩ := chainRemove_decomp hrem
    obtain ⟨hc1, -⟩ := Prod.mk.injEq .. ▸ hr
    rw [mapRemoveLive_found hrem]
    intro j y hy
    have hy' : y ∈ (m.buckets.set (m.hash k % m.capacity) c).getD j [] := hy
    show m.hash y.key % (m.buckets.set (m.hash k % m.capacity) c).length = j
    rw [List.length_set]
    by_cases hj : m.hash k % m.capacity = j
    · subst hj
      rw [getD_set_self (remove_index_lt hrem), hc1] at hy'
      rcases List.mem_append.1 hy' with hin | hin
      · exact hp _ y (by rw [hchain]; exact List.mem_append.2 (Or.inl hin))
      · exact hp _ y (by rw [hchain]; simp [hin])
    · rw [getD_set_ne hj] at hy'
      exact hp j y hy'

theorem chainsUnique_remove {m : Map K V} (k : K) (hu : ChainsUnique m) :
    ChainsUnique (mapRemoveLive m k).1 := by
  cases hrem : chainRemove m.compare k
      (m.buckets.getD (m.hash k % m.capacity) []) with
  | none =>
    rw [mapRemoveLive_notFound hrem]
    exact hu
  | some r =>
    obtain ⟨c, e⟩ := r
    obtain ⟨pre, x, post, hchain, hpre, hmatch, hr, -⟩ := chainRemove_decomp hrem
    obtain ⟨hc1, -⟩ := Prod.mk.injEq .. ▸ hr
    rw [mapRemoveLive_found hrem]
    intro j
    show ((m.buckets.set (m.hash k % m.capacity) c).getD j []).Pairwise
      (fun e₁ e₂ => m.compare e₁.key e₂.key ≠ 0)
    by_cases hj : m.hash k % m.capacity = j
    · subst hj
      rw [getD_set_self (remove_index_lt hrem), hc1]
      have horig := hu (m.hash k % m.capacity)
      rw [hchain] at horig
      exact horig.sublist ((List.sublist_cons_self x post).append_left pre)
    · rw [getD_set_ne hj]
      exact hu j

theorem placed_clear (m : Map K V) : Placed (mapClearLive m).1 := by
  intro j e he
  have he' : e ∈ (m.buckets.map (fun _ => ([] : List (MapEntry K V)))).getD j [] := he
  rw [getD_map_const_nil] at he'
  cases he'

theorem chainsUnique_clear (m : Map K V) : ChainsUnique (mapClearLive m).1 := by
  intro j
  show ((m.buckets.map (fun _ => ([] : List (MapEntry K V)))).getD j []).Pairwise _
  rw [getD_map_const_nil]
  exact List.Pairwise.nil


/-! ### Rehash machinery for resize -/

theorem rehashStep_length (hsh : K → Nat) (nc : Nat)
    (nb : List (List (MapEntry K V))) (e : MapEntry K V) :
    (rehashStep hsh nc nb e).length = nb.length := by
  simp [rehashStep]

theorem rehash_chain_length (hsh : K → Nat) (nc : Nat) :
    ∀ (chain : List (MapEntry K V)) (nb : List (List (MapEntry K V))),
      (chain.foldl (rehashStep hsh nc) nb).length = nb.length
  | [], _ => rfl
  | e :: rest, nb => by
    rw [List.foldl_cons, rehash_chain_length hsh nc rest, rehashStep_length]

theorem rehash_length (hsh : K → Nat) (nc : Nat) :
    ∀ (chains : List (List (MapEntry K V))) (nb : List (List (MapEntry K V))),
      (chains.foldl (fun nb chain => chain.foldl (rehashStep hsh nc) nb) nb).length
        = nb.length
  | [], _ => rfl
  | chain :: rest, nb => by
    rw [List.foldl_cons, rehash_length hsh nc rest, rehash_chain_length]

theorem flatten_replicate_nil {α : Type} :
    ∀ n : Nat, (List.replicate n ([] : List α)).flatten = []
  | 0 => rfl
  | n + 1 => by
    rw [List.replicate_succ, List.flatten_cons, List.nil_append,
      flatten_replicate_nil n]

theorem rehashStep_flatten_perm (hsh : K → Nat) {nc : Nat}
    {nb : List (List (MapEntry K V))} (hlen : nb.length = nc) (hnc : 0 < nc)
    (e : MapEntry K V) :
    ((rehashStep hsh nc nb e).flatten).Perm (e :: nb.flatten) := by
  have hlt : hsh e.key % nc < nb.length := by
    rw [hlen]; exact Nat.mod_lt _ hnc
  refine (flatten_set_perm nb _ hlt _).trans ?_
  exact ((flatten_perm_getD nb _ hlt).symm.cons e)

theorem rehash_chain_flatten_perm (hsh : K → Nat) {nc : Nat} (hnc : 0 < nc) :
    ∀ (chain : List (MapEntry K V)) (nb : List (List (MapEntry K V))),
      nb.length = nc →
      ((chain.foldl (rehashStep hsh nc) nb).flatten).Perm (chain ++ nb.flatten)
  | [], nb, _ => List.Perm.refl _
  | e :: rest, nb, hlen => by
    rw [List.foldl_cons]
    have h1 := rehash_chain_flatten_perm hsh hnc rest (rehashStep hsh nc nb e)
      (by rw [rehashStep_length]; exact hlen)
    refine h1.trans ?_
    have h2 := rehashStep_flatten_perm hsh hlen hnc e
    exact (h2.append_left rest).trans List.perm_middle

theorem rehash_flatten_perm (hsh : K → Nat) {nc : Nat} (hnc : 0 < nc) :
    ∀ (chains : List (List (MapEntry K V))) (nb : List (List (MapEntry K V))),
      nb.length = nc →
      ((chains.foldl (fun nb chain => chain.foldl (rehashStep hsh nc) nb) nb).flatten).Perm
        (chains.flatten ++ nb.flatten)
  | [], nb, _ => by
    rw [List.foldl_nil, List.flatten_nil, List.nil_append]
  | chain :: rest, nb, hlen => by
    rw [List.foldl_cons]
    have h1 := rehash_flatten_perm hsh hnc rest (chain.foldl (rehashStep hsh nc) nb)
      (by rw [rehash_chain_length]; exact hlen)
    refine h1.trans ?_
    have h2 := rehash_chain_flatten_perm hsh hnc chain nb hlen
    refine (h2.append_left rest.flatten).trans ?_
    rw [List.flatten_cons, List.append_assoc, ← List.append_assoc,
      ← List.append_assoc]
    exact (List.perm_append_comm).append_right _

theorem rehashStep_placed (hsh : K → Nat) {nc : Nat}
    {nb : List (List (MapEntry K V))} (hlen : nb.length = nc) (hnc : 0 < nc)
    (hp : ∀ j : Nat, ∀ x ∈ nb.getD j [], hsh x.key % nc = j) (e : MapEntry K V) :
    ∀ j : Nat, ∀ x ∈ (rehashStep hsh nc nb e).getD j [], hsh x.key % nc = j := by
  intro j x hx
  unfold rehashStep at hx
  have hlt : hsh e.key % nc < nb.length := by
    rw [hlen]; exact Nat.mod_lt _ hnc
  by_cases hj : hsh e.key % nc = j
  · subst hj
    rw [getD_set_self hlt] at hx
    rcases List.mem_cons.1 hx with rfl | hx'
    · rfl
    · exact hp _ x hx'
  · rw [getD_set_ne hj] at hx
    exact hp j x hx

theorem rehash_chain_placed (hsh : K → Nat) {nc : Nat} (hnc : 0 < nc) :
    ∀ (chain : List (MapEntry K V)) (nb : List (List (MapEntry K V))),
      nb.length = nc →
      (∀ j : Nat, ∀ x ∈ nb.getD j [], hsh x.key % nc = j) →
      ∀ j : Nat, ∀ x ∈ (chain.foldl (rehashStep hsh nc) nb).getD j [],
        hsh x.key % nc = j
  | [], _, _, hp => hp
  | e :: rest, nb, hlen, hp => by
    rw [List.foldl_cons]
    exact rehash_chain_placed hsh hnc rest (rehashStep hsh nc nb e)
      (by rw [rehashStep_length]; exact hlen)
      (rehashStep_placed hsh hlen hnc hp e)

theorem rehash_placed (hsh : K → Nat) {nc : Nat} (hnc : 0 < nc) :
    ∀ (chains : List (List (MapEntry K V))) (nb : List (List (MapEntry K V))),
      nb.length = nc →
      (∀ j : Nat, ∀ x ∈ nb.getD j [], hsh x.key % nc = j) →
      ∀ j : Nat,
        ∀ x ∈ (chains.foldl (fun nb chain => chain.foldl (rehashStep hsh nc) nb)
          nb).getD j [], hsh x.key % nc = j
  | [], _, _, hp => hp
  | chain :: rest, nb, hlen, hp => by
    rw [List.foldl_cons]
    exact rehash_placed hsh hnc rest (chain.foldl (rehashStep hsh nc) nb)
      (by rw [rehash_chain_length]; exact hlen)
      (rehash_chain_placed hsh hnc chain nb hlen hp)

theorem resize_accept_capacity {m : Map K V} {n : Nat} (h : ¬(n = 0 ∨ n < m.size)) :
    (mapResizeLive m n).1.capacity = n := by
  rw [mapResizeLive_accept h]
  show (m.buckets.foldl _ (List.replicate n [])).length = n
  rw [rehash_length, List.length_replicate]

theorem resize_size {m : Map K V} (n : Nat) :
    (mapResizeLive m n).1.size = m.size := by
  by_cases h : n = 0 ∨ n < m.size
  · rw [mapResizeLive_reject h]
  · rw [mapResizeLive_accept h]

theorem resize_hash {m : Map K V} (n : Nat) :
    (mapResizeLive m n).1.hash = m.hash := by
  by_cases h : n = 0 ∨ n < m.size
  · rw [mapResizeLive_reject h]
  · rw [mapResizeLive_accept h]

theorem resize_compare {m : Map K V} (n : Nat) :
    (mapResizeLive m n).1.compare = m.compare := by
  by_cases h : n = 0 ∨ n < m.size
  · rw [mapResizeLive_reject h]
  · rw [mapResizeLive_accept h]

theorem entries_resize_perm {m : Map K V} {n : Nat} (h : ¬(n = 0 ∨ n < m.size)) :
    ((mapResizeLive m n).1.entries).Perm m.entries := by
  have hnc : 0 < n := Nat.pos_of_ne_zero (fun h0 => h (Or.inl h0))
  rw [mapResizeLive_accept h]
  show ((m.buckets.foldl _ (List.replicate n [])).flatten).Perm m.buckets.flatten
  have := rehash_flatten_perm m.hash hnc m.buckets (List.replicate n [])
    (List.length_replicate ..)
  rwa [flatten_replicate_nil, List.append_nil] at this

theorem placed_resize {m : Map K V} {n : Nat} (h : ¬(n = 0 ∨ n < m.size)) :
    Placed (mapResizeLive m n).1 := by
  have hnc : 0 < n := Nat.pos_of_ne_zero (fun h0 => h (Or.inl h0))
  rw [mapResizeLive_accept h]
  intro j x hx
  have hx' : x ∈ (m.buckets.foldl
      (fun nb chain => chain.foldl (rehashStep m.hash n) nb)
      (List.replicate n [])).getD j [] := hx
  show m.hash x.key %
    (m.buckets.foldl (fun nb chain => chain.foldl (rehashStep m.hash n) nb)
      (List.replicate n [])).length = j
  rw [rehash_length, List.length_replicate]
  refine rehash_placed m.hash hnc m.buckets (List.replicate n [])
    (List.length_replicate ..) ?_ j x hx'
  intro j x hx
  rw [getD_replicate_nil] at hx
  cases hx


/-! ### Global uniqueness and lookup characterisation -/

theorem entries_pairwise {m : Map K V} (hp : Placed m) (hu : ChainsUnique m)
    (hh : HashConsistent m.hash m.compare) :
    m.entries.Pairwise (fun e₁ e₂ => m.compare e₁.key e₂.key ≠ 0) := by
  rw [Map.entries, List.pairwise_flatten]
  refine ⟨?_, ?_⟩
  · intro l hl
    obtain ⟨j, hj, rfl⟩ := List.mem_iff_getElem.1 hl
    have := hu j
    rwa [List.getD_eq_getElem _ _ hj] at this
  · rw [List.pairwise_iff_getElem]
    intro a b ha hb hab x hx y hy h0
    have hxa : m.hash x.key % m.capacity = a :=
      hp a x (by rw [List.getD_eq_getElem _ _ ha]; exact hx)
    have hyb : m.hash y.key % m.capacity = b :=
      hp b y (by rw [List.getD_eq_getElem _ _ hb]; exact hy)
    have hhash := hh _ _ h0
    rw [hhash, hyb] at hxa
    omega

theorem entRel_symm {m : Map K V} (heq : CmpEquiv m.compare)
    {e₁ e₂ : MapEntry K V} (h : m.compare e₁.key e₂.key ≠ 0) :
    m.compare e₂.key e₁.key ≠ 0 :=
  fun h0 => h (keyEq_symm heq h0)

theorem chainsUnique_resize {m : Map K V} {n : Nat} (hp : Placed m)
    (hu : ChainsUnique m) (heq : CmpEquiv m.compare)
    (hh : HashConsistent m.hash m.compare) (h : ¬(n = 0 ∨ n < m.size)) :
    ChainsUnique (mapResizeLive m n).1 := by
  have hglobal := entries_pairwise hp hu hh
  have hperm := entries_resize_perm h
  have hglobal' : ((mapResizeLive m n).1.entries).Pairwise
      (fun e₁ e₂ => m.compare e₁.key e₂.key ≠ 0) :=
    (hperm.pairwise_iff (fun hab => entRel_symm heq hab)).2 hglobal
  rw [Map.entries, List.pairwise_flatten] at hglobal'
  intro j
  rw [show (mapResizeLive m n).1.compare = m.compare from resize_compare n]
  rcases Nat.lt_or_ge j ((mapResizeLive m n).1.buckets.length) with hj | hj
  · have := hglobal'.1 ((mapResizeLive m n).1.buckets[j]) (List.getElem_mem hj)
    rwa [List.getD_eq_getElem _ _ hj]
  · rw [List.getD_eq_default _ _ hj]
    exact List.Pairwise.nil

theorem countP_le_one {α : Type} {p : α → Bool} :
    ∀ {l : List α}, l.Pairwise (fun a b => ¬(p a = true ∧ p b = true)) →
      l.countP p ≤ 1
  | [], _ => by simp
  | x :: rest, h => by
    rw [List.pairwise_cons] at h
    by_cases hx : p x = true
    · rw [List.countP_cons_of_pos _ _ hx]
      have h0 : rest.countP p = 0 :=
        List.countP_eq_zero.2 (fun a ha hpa => h.1 a ha ⟨hx, hpa⟩)
      omega
    · rw [List.countP_cons_of_neg _ _ hx]
      exact countP_le_one h.2

theorem countP_matches {m : Map K V} (hp : Placed m) (hu : ChainsUnique m)
    (heq : CmpEquiv m.compare) (hh : HashConsistent m.hash m.compare) (k : K)
    (hex : ∃ e ∈ m.entries, m.compare e.key k = 0) :
    m.entries.countP (fun e => m.compare e.key k = 0) = 1 := by
  have hg := entries_pairwise hp hu hh
  have hle : m.entries.countP (fun e => m.compare e.key k = 0) ≤ 1 := by
    refine countP_le_one (hg.imp ?_)
    intro a b hab hand
    exact hab (keyEq_trans heq (of_decide_eq_true hand.1)
      (keyEq_symm heq (of_decide_eq_true hand.2)))
  have hpos : 0 < m.entries.countP (fun e => m.compare e.key k = 0) := by
    obtain ⟨e, he, hm⟩ := hex
    exact List.countP_pos_iff.2 ⟨e, he, decide_eq_true hm⟩
  omega

theorem mem_hashed_chain {m : Map K V} (hp : Placed m)
    (hh : HashConsistent m.hash m.compare) {k : K} {e : MapEntry K V}
    (he : e ∈ m.entries) (hm : m.compare e.key k = 0) :
    e ∈ m.buckets.getD (m.hash k % m.capacity) [] := by
  rw [Map.entries, List.mem_flatten] at he
  obtain ⟨l, hl, hel⟩ := he
  obtain ⟨j, hj, rfl⟩ := List.mem_iff_getElem.1 hl
  have hplace : m.hash e.key % m.capacity = j :=
    hp j e (by rw [List.getD_eq_getElem _ _ hj]; exact hel)
  have hhash : m.hash e.key = m.hash k := hh _ _ hm
  rw [← hhash, hplace, List.getD_eq_getElem _ _ hj]
  exact hel

theorem lookup_isSome_iff {m : Map K V} (hp : Placed m)
    (hh : HashConsistent m.hash m.compare) (k : K) :
    (lookupEntry m k).isSome = true ↔
      ∃ e ∈ m.entries, m.compare e.key k = 0 := by
  constructor
  · intro hs
    obtain ⟨e, he⟩ := Option.isSome_iff_exists.1 hs
    obtain ⟨hm, -⟩ := chainFind_decomp he
    exact ⟨e, mem_getD_mem_flatten (chainFind_mem he), hm⟩
  · rintro ⟨e, he, hm⟩
    have hchain := mem_hashed_chain hp hh he hm
    rw [lookupEntry]
    cases hfind : chainFind m.compare k
        (m.buckets.getD (m.hash k % m.capacity) []) with
    | some x => rfl
    | none => exact absurd hm (chainFind_eq_none.1 hfind e hchain)

theorem mapGetLive_eq_of_mem {m : Map K V} (hp : Placed m) (hu : ChainsUnique m)
    (heq : CmpEquiv m.compare) (hh : HashConsistent m.hash m.compare) {k : K}
    {e : MapEntry K V} (he : e ∈ m.entries) (hm : m.compare e.key k = 0) :
    mapGetLive m k = e.value := by
  have hchain := mem_hashed_chain hp hh he hm
  rw [mapGetLive_eq_lookup, lookupEntry]
  cases hfind : chainFind m.compare k
      (m.buckets.getD (m.hash k % m.capacity) []) with
  | none => exact absurd hm (chainFind_eq_none.1 hfind e hchain)
  | some x =>
    obtain ⟨hxm, pre, post, hdec, hpre⟩ := chainFind_decomp hfind
    rw [hdec] at hchain
    rcases List.mem_append.1 hchain with hin | hin
    · exact absurd hm (hpre e hin)
    · rcases List.mem_cons.1 hin with rfl | hin'
      · rfl
      · have hpair := hu (m.hash k % m.capacity)
        rw [hdec, List.pairwise_append, List.pairwise_cons] at hpair
        have hrel := hpair.2.1.1 e hin'
        exact absurd (keyEq_trans heq hxm (keyEq_symm heq hm)) hrel

theorem mapGetLive_eq_none_of_absent {m : Map K V} {k : K}
    (habs : ∀ e ∈ m.entries, m.compare e.key k ≠ 0) :
    mapGetLive m k = none := by
  rw [mapGetLive_eq_lookup, lookupEntry]
  cases hfind : chainFind m.compare k
      (m.buckets.getD (m.hash k % m.capacity) []) with
  | none => rfl
  | some x =>
    obtain ⟨hm, -⟩ := chainFind_decomp hfind
    exact absurd hm (habs x (mem_getD_mem_flatten (chainFind_mem hfind)))


/-! ### Clear and remove facts -/

theorem clear_capacity (m : Map K V) : (mapClearLive m).1.capacity = m.capacity := by
  simp [mapClearLive, Map.capacity]

theorem clear_size (m : Map K V) : (mapClearLive m).1.size = 0 := rfl

theorem mapGetLive_clear (m : Map K V) (k : K) :
    mapGetLive (mapClearLive m).1 k = none := by
  rw [mapGetLive]
  show chainGet m.compare k
    ((m.buckets.map (fun _ => [])).getD _ []) = none
  rw [getD_map_const_nil]
  rfl

theorem remove_capacity (m : Map K V) (k : K) :
    (mapRemoveLive m k).1.capacity = m.capacity := by
  cases hrem : chainRemove m.compare k
      (m.buckets.getD (m.hash k % m.capacity) []) with
  | none => rw [mapRemoveLive_notFound hrem]
  | some r =>
    obtain ⟨c, e⟩ := r
    rw [mapRemoveLive_found hrem]
    simp [Map.capacity]

theorem remove_hash (m : Map K V) (k : K) :
    (mapRemoveLive m k).1.hash = m.hash := by
  cases hrem : chainRemove m.compare k
      (m.buckets.getD (m.hash k % m.capacity) []) with
  | none => rw [mapRemoveLive_notFound hrem]
  | some r =>
    obtain ⟨c, e⟩ := r
    rw [mapRemoveLive_found hrem]

theorem remove_compare (m : Map K V) (k : K) :
    (mapRemoveLive m k).1.compare = m.compare := by
  cases hrem : chainRemove m.compare k
      (m.buckets.getD (m.hash k % m.capacity) []) with
  | none => rw [mapRemoveLive_notFound hrem]
  | some r =>
    obtain ⟨c, e⟩ := r
    rw [mapRemoveLive_found hrem]

theorem entries_remove_perm {m : Map K V} {k : K} {c : List (MapEntry K V)}
    {e : MapEntry K V}
    (hrem : chainRemove m.compare k
      (m.buckets.getD (m.hash k % m.capacity) []) = some (c, e)) :
    m.entries.Perm (e :: (mapRemoveLive m k).1.entries) := by
  obtain ⟨pre, x, post, hchain, hpre, hmatch, hr, -⟩ := chainRemove_decomp hrem
  obtain ⟨hc1, he⟩ := Prod.mk.injEq .. ▸ hr
  rw [mapRemoveLive_found hrem]
  show m.buckets.flatten.Perm
    (e :: (m.buckets.set (m.hash k % m.capacity) c).flatten)
  rw [he, hc1]
  have hlt := remove_index_lt hrem
  have h1 := flatten_perm_getD m.buckets (m.hash k % m.capacity) hlt
  have h2 := flatten_set_perm m.buckets (m.hash k % m.capacity) hlt (pre ++ post)
  refine h1.trans ?_
  rw [hchain]
  refine List.Perm.trans ?_ (h2.cons x).symm
  simp only [List.cons_append, List.append_assoc]
  exact List.perm_middle

theorem mapRemoveLive_fail_of_absent {m : Map K V} {k : K}
    (habs : ∀ e ∈ m.entries, m.compare e.key k ≠ 0) :
    mapRemoveLive m k = (m, false, []) := by
  cases hrem : chainRemove m.compare k
      (m.buckets.getD (m.hash k % m.capacity) []) with
  | none => exact mapRemoveLive_notFound hrem
  | some r =>
    obtain ⟨c, e⟩ := r
    obtain ⟨pre, x, post, hchain, hpre, hmatch, hr, -⟩ := chainRemove_decomp hrem
    have hx : x ∈ m.buckets.getD (m.hash k % m.capacity) [] := by
      rw [hchain]
      simp
    exact absurd hmatch (habs x (mem_getD_mem_flatten hx))

theorem remove_success_iff {m : Map K V} (hp : Placed m)
    (hh : HashConsistent m.hash m.compare) (k : K) :
    (mapRemoveLive m k).2.1 = true ↔
      ∃ e ∈ m.entries, m.compare e.key k = 0 := by
  cases hrem : chainRemove m.compare k
      (m.buckets.getD (m.hash k % m.capacity) []) with
  | none =>
    rw [mapRemoveLive_notFound hrem]
    constructor
    · intro h0
      cases h0
    · rintro ⟨e, he, hm⟩
      have hchain := mem_hashed_chain hp hh he hm
      exact absurd hm (chainFind_eq_none.1 (chainRemove_eq_none.1 hrem) e hchain)
  | some r =>
    obtain ⟨c, e⟩ := r
    obtain ⟨pre, x, post, hchain, hpre, hmatch, hr, -⟩ := chainRemove_decomp hrem
    rw [mapRemoveLive_found hrem]
    have hx : x ∈ m.buckets.getD (m.hash k % m.capacity) [] := by
      rw [hchain]
      simp
    exact ⟨fun _ => ⟨x, mem_getD_mem_flatten hx, hmatch⟩, fun _ => rfl⟩

/-! ### Invariants along put sequences and reachability -/

theorem putList_inv (ps : List (K × Option V)) :
    ∀ m : Map K V, 0 < m.capacity → CmpEquiv m.compare →
      HashConsistent m.hash m.compare → Placed m → ChainsUnique m →
      Placed (putList m ps) ∧ ChainsUnique (putList m ps) := by
  induction ps with
  | nil => exact fun m _ _ _ hp hu => ⟨hp, hu⟩
  | cons p ps ih =>
    intro m hc heq hh hp hu
    rw [putList_cons]
    refine ih (mapPutLive m p.1 p.2).1 ?_ ?_ ?_ ?_ ?_
    · rw [put_capacity]; exact hc
    · rw [put_compare]; exact heq
    · rw [put_compare, put_hash]; exact hh
    · exact placed_put p.1 p.2 hc hp
    · exact chainsUnique_put p.1 p.2 hc heq hu

theorem reachable_placed_aux {m : Map K V} (h : Reachable m) :
    0 < m.capacity ∧ Placed m := by
  induction h with
  | create c hsh cmp hc =>
    refine ⟨?_, placed_create c hsh cmp⟩
    show 0 < (List.replicate c ([] : List (MapEntry K V))).length
    simpa using hc
  | put m k v _ ih =>
    exact ⟨by rw [put_capacity]; exact ih.1, placed_put k v ih.1 ih.2⟩
  | remove m k _ ih =>
    exact ⟨by rw [remove_capacity]; exact ih.1, placed_remove k ih.2⟩
  | clear m _ ih =>
    exact ⟨by rw [clear_capacity]; exact ih.1, placed_clear m⟩
  | resize m n _ ih =>
    by_cases hn : n = 0 ∨ n < m.size
    · rw [mapResizeLive_reject hn]
      exact ih
    · refine ⟨?_, placed_resize hn⟩
      rw [resize_accept_capacity hn]
      exact Nat.pos_of_ne_zero (fun h0 => hn (Or.inl h0))

/-! ### The concrete instantiation -/

theorem natCmp_eq_zero {a b : Nat} : natCmp a b = 0 ↔ a = b := by
  rw [natCmp]
  split
  · rename_i h
    exact ⟨fun _ => h, fun _ => rfl⟩
  · rename_i h
    simp [h]

theorem natCmpEquiv : CmpEquiv natCmp := by
  refine ⟨fun a => ?_, fun h => ?_, fun h1 h2 => ?_⟩
  · exact natCmp_eq_zero.2 rfl
  · exact natCmp_eq_zero.2 (natCmp_eq_zero.1 h).symm
  · exact natCmp_eq_zero.2 ((natCmp_eq_zero.1 h1).trans (natCmp_eq_zero.1 h2))

theorem natHashConsistent : HashConsistent natHash natCmp := by
  intro a b h
  rw [natCmp_eq_zero.1 h]


/-! ### Claim theorems -/

/-- C9: every operation tolerates a null table reference defensively:
with a null table, `mapPut`, `mapRemove`, `mapResize` and `mapContains`
return failure/false, `mapGet` returns the not-found signal (NULL),
`mapClear` is a no-op and `mapSize` returns 0; no state is mutated and
no release hook runs. -/
theorem null_table_defensive (k : Option K) (v : Option V) (n : Nat) :
    mapPut (none : Option (Map K V)) k v = (none, false, []) ∧
    mapGet (none : Option (Map K V)) k = none ∧
    mapRemove (none : Option (Map K V)) k = (none, false, []) ∧
    mapContains (none : Option (Map K V)) k = false ∧
    mapResize (none : Option (Map K V)) n = (none, false) ∧
    mapClear (none : Option (Map K V)) = (none, []) ∧
    mapSize (none : Option (Map K V)) = 0 := by
  cases k with
  | none => exact ⟨rfl, rfl, rfl, rfl, rfl, rfl, rfl⟩
  | some x => exact ⟨rfl, rfl, rfl, rfl, rfl, rfl, rfl⟩

/-- C7: after `mapClear`, `mapSize` is 0 and `mapContains` is false for
every key (in particular every previously inserted one), while the
capacity is unchanged, so the table remains usable. -/
theorem clear_resets (m : Map K V) (k : K) :
    mapSize (some (mapClearLive m).1) = 0 ∧
    (mapClearLive m).1.capacity = m.capacity ∧
    mapContains (some (mapClearLive m).1) (some k) = false := by
  refine ⟨rfl, clear_capacity m, ?_⟩
  show (mapGetLive (mapClearLive m).1 k).isSome = false
  rw [mapGetLive_clear]
  rfl

/-- C5: `mapResize` with `newCapacity = 0` or `newCapacity < size` fails
and leaves the table completely unchanged: same capacity, same size, and
`mapGet` answers identically for every key. -/
theorem resize_reject_unchanged (m : Map K V) (n : Nat)
    (h : n = 0 ∨ n < m.size) :
    mapResizeLive m n = (m, false) ∧
    (mapResizeLive m n).1.capacity = m.capacity ∧
    (mapResizeLive m n).1.size = m.size ∧
    ∀ k : K, mapGetLive (mapResizeLive m n).1 k = mapGetLive m k := by
  rw [mapResizeLive_reject h]
  exact ⟨rfl, rfl, rfl, fun k => rfl⟩

theorem resize_reject_unchanged_witness :
    mapResizeLive (mapCreateLive 2 natHash natCmp : Map Nat Nat) 0 =
      ((mapCreateLive 2 natHash natCmp : Map Nat Nat), false) ∧
    (mapResizeLive (mapCreateLive 2 natHash natCmp : Map Nat Nat) 0).1.capacity =
      (mapCreateLive 2 natHash natCmp : Map Nat Nat).capacity ∧
    (mapResizeLive (mapCreateLive 2 natHash natCmp : Map Nat Nat) 0).1.size =
      (mapCreateLive 2 natHash natCmp : Map Nat Nat).size ∧
    ∀ k : Nat,
      mapGetLive (mapResizeLive (mapCreateLive 2 natHash natCmp : Map Nat Nat) 0).1 k =
        mapGetLive (mapCreateLive 2 natHash natCmp : Map Nat Nat) k :=
  resize_reject_unchanged (mapCreateLive 2 natHash natCmp) 0 (Or.inl rfl)

/-- C2: `mapPut` of a non-null key succeeds (allocation is modelled as
succeeding) and an immediately following `mapGet` of the same key
returns exactly the value just put. -/
theorem put_get_roundtrip (m : Map K V) (k : K) (v : Option V)
    (hc : 0 < m.capacity) (hrefl : m.compare k k = 0) :
    (mapPutLive m k v).2.1 = true ∧
    mapGetLive (mapPutLive m k v).1 k = v := by
  refine ⟨put_success m k v, ?_⟩
  have hlen : m.buckets.length = m.capacity := rfl
  cases hrep : chainReplace m.compare k v
      (m.buckets.getD (m.hash k % m.capacity) []) with
  | some r =>
    obtain ⟨c, o⟩ := r
    obtain ⟨pre, e, post, hchain, hpre, hmatch, hr, -⟩ := chainReplace_decomp hrep
    obtain ⟨hc1, -⟩ := Prod.mk.injEq .. ▸ hr
    rw [mapPutLive_found hrep, mapGetLive_eq_lookup, lookupEntry_mk,
      List.length_set, hlen, getD_set_self (index_lt_capacity hc k), hc1,
      chainFind_append, chainFind_eq_none.2 hpre]
    simp [chainFind, hmatch]
  | none =>
    rw [mapPutLive_notFound hrep, mapGetLive_eq_lookup, lookupEntry_mk,
      List.length_set, hlen, getD_set_self (index_lt_capacity hc k)]
    simp [chainFind, hrefl]

theorem put_get_roundtrip_witness :
    (mapPutLive (mapCreateLive 2 natHash natCmp : Map Nat Nat) 3 (some 9)).2.1 = true ∧
    mapGetLive (mapPutLive (mapCreateLive 2 natHash natCmp : Map Nat Nat) 3
      (some 9)).1 3 = some 9 :=
  put_get_roundtrip (mapCreateLive 2 natHash natCmp) 3 (some 9) (by decide) (by decide)

/-- C10: a key stored with a NULL value: the put succeeds, the entry
exists and is counted by `size`, yet `mapContains` answers false and
`mapGet` returns NULL — the same signal as for a key never inserted. -/
theorem null_value_indistinguishable :
    (mapPutLive (mapCreateLive 4 natHash natCmp : Map Nat Nat) 5 none).2.1 = true ∧
    (mapPutLive (mapCreateLive 4 natHash natCmp : Map Nat Nat) 5 none).1.size = 1 ∧
    (mapPutLive (mapCreateLive 4 natHash natCmp : Map Nat Nat) 5 none).1.entries =
      [{ key := 5, value := none }] ∧
    mapContainsLive
      (mapPutLive (mapCreateLive 4 natHash natCmp : Map Nat Nat) 5 none).1 5 = false ∧
    mapGetLive
      (mapPutLive (mapCreateLive 4 natHash natCmp : Map Nat Nat) 5 none).1 5 = none ∧
    mapGetLive
      (mapPutLive (mapCreateLive 4 natHash natCmp : Map Nat Nat) 5 none).1 7 = none ∧
    mapContainsLive
      (mapPutLive (mapCreateLive 4 natHash natCmp : Map Nat Nat) 5 none).1 7 = false := by
  decide

/-- C4: `mapPut` on a key the hashed chain already holds (first match
`e`) reports success, emits exactly one release event — `freeValue` on
the old value, never `freeKey` on the new key argument — stores the new
value in the existing entry while keeping the entry's old key, creates
no new entry and leaves `size` unchanged. -/
theorem put_overwrite_semantics (m : Map K V) (k : K) (v : Option V)
    (e : MapEntry K V) (hfound : lookupEntry m k = some e) :
    (mapPutLive m k v).2.1 = true ∧
    (mapPutLive m k v).2.2 = [FreeEvt.val e.value] ∧
    (mapPutLive m k v).1.size = m.size ∧
    (mapPutLive m k v).1.entries.length = m.entries.length ∧
    ∃ pre post,
      m.buckets.getD (m.hash k % m.capacity) [] = pre ++ e :: post ∧
      (mapPutLive m k v).1.buckets =
        m.buckets.set (m.hash k % m.capacity)
          (pre ++ { key := e.key, value := v } :: post) := by
  have hlt : m.hash k % m.capacity < m.buckets.length := by
    by_contra hge
    rw [lookupEntry, List.getD_eq_default _ _ (Nat.le_of_not_lt hge)] at hfound
    cases hfound
  cases hrep : chainReplace m.compare k v
      (m.buckets.getD (m.hash k % m.capacity) []) with
  | none =>
    rw [lookupEntry, chainReplace_eq_none.1 hrep] at hfound
    cases hfound
  | some r =>
    obtain ⟨c, o⟩ := r
    obtain ⟨pre, x, post, hchain, hpre, hmatch, hr, hfind⟩ := chainReplace_decomp hrep
    obtain ⟨hc1, ho⟩ := Prod.mk.injEq .. ▸ hr
    rw [lookupEntry] at hfound
    have hex : x = e := by
      rw [hfind] at hfound
      exact Option.some.inj hfound
    subst hex
    rw [mapPutLive_found hrep]
    refine ⟨rfl, by rw [ho], rfl, ?_, pre, post, hchain, by rw [hc1]⟩
    show (m.buckets.set (m.hash k % m.capacity) c).flatten.length
      = m.buckets.flatten.length
    have hp1 := (flatten_set_perm m.buckets (m.hash k % m.capacity) hlt c).length_eq
    have hp2 := (flatten_perm_getD m.buckets (m.hash k % m.capacity) hlt).length_eq
    rw [hp1, List.length_append, hc1, hp2, List.length_append, hchain]
    simp only [List.length_append, List.length_cons, List.length_flatten]

theorem put_overwrite_semantics_witness :
    (mapPutLive
      (mapPutLive (mapCreateLive 2 natHash natCmp : Map Nat Nat) 3 (some 9)).1
      3 (some 7)).2.2 = [FreeEvt.val (some 9)] ∧
    (mapPutLive
      (mapPutLive (mapCreateLive 2 natHash natCmp : Map Nat Nat) 3 (some 9)).1
      3 (some 7)).1.size =
      (mapPutLive (mapCreateLive 2 natHash natCmp : Map Nat Nat) 3 (some 9)).1.size := by
  have h := put_overwrite_semantics
    (mapPutLive (mapCreateLive 2 natHash natCmp : Map Nat Nat) 3 (some 9)).1
    3 (some 7) { key := 3, value := some 9 } (by decide)
  exact ⟨h.2.1, h.2.2.1⟩

/-- C8: every table state reachable through the public API (create with
positive capacity, then any sequence of put/remove/clear/resize; get
does not mutate) keeps every entry in the bucket indexed by
`hash(key) mod capacity`; resize re-establishes this for the new
capacity by its full rehash. -/
theorem reachable_placed {m : Map K V} (h : Reachable m) : Placed m :=
  (reachable_placed_aux h).2

theorem reachable_placed_witness :
    Placed (mapPutLive (mapCreateLive 2 natHash natCmp : Map Nat Nat) 3 (some 9)).1 :=
  reachable_placed
    (Reachable.put _ 3 (some 9) (Reachable.create 2 natHash natCmp (by decide)))


/-- C3: on a live table satisfying the representation invariant, under
the interface contract on `hash`/`compare`, `mapResize` to any
`newCapacity ≥ 1` with `newCapacity ≥ size` succeeds, keeps `size`
unchanged, and `mapGet` answers identically for every key (so in
particular for every previously inserted, non-removed key). -/
theorem resize_preserves_contents (m : Map K V) (n : Nat)
    (hp : Placed m) (hu : ChainsUnique m) (heq : CmpEquiv m.compare)
    (hh : HashConsistent m.hash m.compare)
    (h1 : 1 ≤ n) (h2 : m.size ≤ n) :
    (mapResizeLive m n).2 = true ∧
    (mapResizeLive m n).1.size = m.size ∧
    ∀ k : K, mapGetLive (mapResizeLive m n).1 k = mapGetLive m k := by
  have hcond : ¬(n = 0 ∨ n < m.size) := by omega
  refine ⟨by rw [mapResizeLive_accept hcond], resize_size n, ?_⟩
  intro k
  have hp' := placed_resize hcond
  have hu' := chainsUnique_resize hp hu heq hh hcond
  have heq' : CmpEquiv (mapResizeLive m n).1.compare := by
    rw [resize_compare]; exact heq
  have hh' : HashConsistent (mapResizeLive m n).1.hash
      (mapResizeLive m n).1.compare := by
    rw [resize_compare, resize_hash]; exact hh
  by_cases hex : ∃ e ∈ m.entries, m.compare e.key k = 0
  · obtain ⟨e, he, hm⟩ := hex
    have hg1 := mapGetLive_eq_of_mem hp hu heq hh he hm
    have he' : e ∈ (mapResizeLive m n).1.entries :=
      ((entries_resize_perm hcond).mem_iff).2 he
    have hm' : (mapResizeLive m n).1.compare e.key k = 0 := by
      rw [resize_compare]; exact hm
    have hg2 := mapGetLive_eq_of_mem hp' hu' heq' hh' he' hm'
    rw [hg1, hg2]
  · have habs : ∀ e ∈ m.entries, m.compare e.key k ≠ 0 :=
      fun e he hm => hex ⟨e, he, hm⟩
    have habs' : ∀ e ∈ (mapResizeLive m n).1.entries,
        (mapResizeLive m n).1.compare e.key k ≠ 0 := by
      intro e he hm
      rw [resize_compare] at hm
      exact habs e ((entries_resize_perm hcond).subset he) hm
    rw [mapGetLive_eq_none_of_absent habs, mapGetLive_eq_none_of_absent habs']

theorem resize_preserves_contents_witness :
    (mapResizeLive
      (mapPutLive (mapCreateLive 2 natHash natCmp : Map Nat Nat) 3 (some 9)).1 5).2
      = true ∧
    (mapResizeLive
      (mapPutLive (mapCreateLive 2 natHash natCmp : Map Nat Nat) 3 (some 9)).1 5).1.size
      = (mapPutLive (mapCreateLive 2 natHash natCmp : Map Nat Nat) 3 (some 9)).1.size ∧
    mapGetLive (mapResizeLive
      (mapPutLive (mapCreateLive 2 natHash natCmp : Map Nat Nat) 3 (some 9)).1 5).1 3
      = mapGetLive
        (mapPutLive (mapCreateLive 2 natHash natCmp : Map Nat Nat) 3 (some 9)).1 3 := by
  have hc : 0 < (mapCreateLive 2 natHash natCmp : Map Nat Nat).capacity := by decide
  have h := resize_preserves_contents
    (mapPutLive (mapCreateLive 2 natHash natCmp : Map Nat Nat) 3 (some 9)).1 5
    (placed_put 3 (some 9) hc (placed_create 2 natHash natCmp))
    (chainsUnique_put 3 (some 9) hc natCmpEquiv (chainsUnique_create 2 natHash natCmp))
    natCmpEquiv natHashConsistent (by decide) (by decide)
  exact ⟨h.1, h.2.1, h.2.2 3⟩

/-- C6: on a live table satisfying the representation invariant, under
the interface contract, `mapRemove` succeeds exactly when some entry's
key compares equal to `k`; on success it releases exactly the removed
entry's key and value (in that order), unlinks that entry (the entry
multiset loses exactly it), decrements `size`, and an immediately
repeated `mapRemove` of the same key fails; with no match the table is
returned unchanged with failure and no release events. -/
theorem remove_spec (m : Map K V) (k : K)
    (hp : Placed m) (hu : ChainsUnique m) (heq : CmpEquiv m.compare)
    (hh : HashConsistent m.hash m.compare) :
    ((mapRemoveLive m k).2.1 = true ↔ ∃ e ∈ m.entries, m.compare e.key k = 0) ∧
    ((¬∃ e ∈ m.entries, m.compare e.key k = 0) →
      mapRemoveLive m k = (m, false, [])) ∧
    ((∃ e ∈ m.entries, m.compare e.key k = 0) →
      ∃ e : MapEntry K V, m.compare e.key k = 0 ∧
        (mapRemoveLive m k).2.2 = [FreeEvt.key e.key, FreeEvt.val e.value] ∧
        (mapRemoveLive m k).1.size = m.size - 1 ∧
        m.entries.Perm (e :: (mapRemoveLive m k).1.entries) ∧
        (mapRemoveLive ((mapRemoveLive m k).1) k).2.1 = false) := by
  refine ⟨remove_success_iff hp hh k, ?_, ?_⟩
  · intro hex
    exact mapRemoveLive_fail_of_absent (fun e he hm => hex ⟨e, he, hm⟩)
  · intro hex
    cases hrem : chainRemove m.compare k
        (m.buckets.getD (m.hash k % m.capacity) []) with
    | none =>
      have hsucc := (remove_success_iff hp hh k).2 hex
      rw [mapRemoveLive_notFound hrem] at hsucc
      cases hsucc
    | some r =>
      obtain ⟨c, e⟩ := r
      obtain ⟨pre, x, post, hchain, hpre, hmatch, hr, -⟩ := chainRemove_decomp hrem
      obtain ⟨hc1, he⟩ := Prod.mk.injEq .. ▸ hr
      refine ⟨e, by rw [he]; exact hmatch, by rw [mapRemoveLive_found hrem],
        by rw [mapRemoveLive_found hrem], entries_remove_perm hrem, ?_⟩
      have hperm := entries_remove_perm hrem
      have hcount := countP_matches hp hu heq hh k hex
      have hcount2 : ((e :: (mapRemoveLive m k).1.entries).countP
          (fun y => m.compare y.key k = 0)) = 1 :=
        (hperm.countP_eq _).symm.trans hcount
      have hce : decide (m.compare e.key k = 0) = true :=
        decide_eq_true (by rw [he]; exact hmatch)
      have hsplit := List.countP_cons_of_pos
        (fun y : MapEntry K V => decide (m.compare y.key k = 0))
        ((mapRemoveLive m k).1.entries) (by exact hce)
      rw [hsplit] at hcount2
      have hzero : ((mapRemoveLive m k).1.entries.countP
          (fun y => m.compare y.key k = 0)) = 0 := by omega
      have habs : ∀ y ∈ (mapRemoveLive m k).1.entries,
          (mapRemoveLive m k).1.compare y.key k ≠ 0 := by
        intro y hy hm
        rw [remove_compare] at hm
        exact List.countP_eq_zero.1 hzero y hy (decide_eq_true hm)
      rw [mapRemoveLive_fail_of_absent habs]

theorem remove_spec_witness :
    (mapRemoveLive
      (mapPutLive (mapCreateLive 2 natHash natCmp : Map Nat Nat) 3 (some 9)).1 3).2.1
      = true ∧
    (mapRemoveLive (mapRemoveLive
      (mapPutLive (mapCreateLive 2 natHash natCmp : Map Nat Nat) 3 (some 9)).1 3).1
      3).2.1 = false := by
  have hc : 0 < (mapCreateLive 2 natHash natCmp : Map Nat Nat).capacity := by decide
  have h := remove_spec
    (mapPutLive (mapCreateLive 2 natHash natCmp : Map Nat Nat) 3 (some 9)).1 3
    (placed_put 3 (some 9) hc (placed_create 2 natHash natCmp))
    (chainsUnique_put 3 (some 9) hc natCmpEquiv (chainsUnique_create 2 natHash natCmp))
    natCmpEquiv natHashConsistent
  have hex : ∃ e ∈ (mapPutLive (mapCreateLive 2 natHash natCmp : Map Nat Nat) 3
      (some 9)).1.entries,
      (mapPutLive (mapCreateLive 2 natHash natCmp : Map Nat Nat) 3
        (some 9)).1.compare e.key 3 = 0 := by
    refine ⟨{ key := 3, value := some 9 }, by decide, by decide⟩
  obtain ⟨e, hm, hev, hsz, hperm, hfail⟩ := h.2.2 hex
  exact ⟨h.1.2 hex, hfail⟩


/-- C1: starting from a freshly created table and performing any
sequence of puts, under the interface contract (the injected equality is
an equivalence and the injected hash is consistent with it), every key
that was put is held by exactly one entry, that entry holds the most
recently put value for the key — which is what `mapGet` observes — and
`size` equals the number of distinct keys put. -/
theorem put_sequence_correct (c : Nat) (hsh : K → Nat) (cmp : K → K → Int)
    (ps : List (K × Option V))
    (hc : 0 < c) (heq : CmpEquiv cmp) (hh : HashConsistent hsh cmp) :
    (∀ (k : K) (w : Option V), lastValue cmp k ps = some w →
      mapGetLive (putList (mapCreateLive c hsh cmp : Map K V) ps) k = w ∧
      (putList (mapCreateLive c hsh cmp : Map K V) ps).entries.countP
        (fun e => cmp e.key k = 0) = 1 ∧
      ∀ e ∈ (putList (mapCreateLive c hsh cmp : Map K V) ps).entries,
        cmp e.key k = 0 → e.value = w) ∧
    (putList (mapCreateLive c hsh cmp : Map K V) ps).size =
      newKeyCount cmp [] (ps.map Prod.fst) := by
  have hc0 : 0 < (mapCreateLive c hsh cmp : Map K V).capacity := by
    show 0 < (List.replicate c ([] : List (MapEntry K V))).length
    simpa using hc
  have heq0 : CmpEquiv (mapCreateLive c hsh cmp : Map K V).compare := heq
  have hh0 : HashConsistent (mapCreateLive c hsh cmp : Map K V).hash
      (mapCreateLive c hsh cmp : Map K V).compare := hh
  obtain ⟨hpF, huF⟩ := putList_inv ps (mapCreateLive c hsh cmp) hc0 heq0 hh0
    (placed_create c hsh cmp) (chainsUnique_create c hsh cmp)
  obtain ⟨hF1, hF2, -⟩ := putList_fields ps (mapCreateLive c hsh cmp)
  have heqF : CmpEquiv (putList (mapCreateLive c hsh cmp : Map K V) ps).compare := by
    rw [hF2]; exact heq
  have hhF : HashConsistent (putList (mapCreateLive c hsh cmp : Map K V) ps).hash
      (putList (mapCreateLive c hsh cmp : Map K V) ps).compare := by
    rw [hF1, hF2]; exact hh
  have hcc : (mapCreateLive c hsh cmp : Map K V).compare = cmp := rfl
  constructor
  · intro k w hlast
    have hget := mapGetLive_putList ps (mapCreateLive c hsh cmp) hc0 heq0 hh0 k
    rw [hcc, hlast] at hget
    have hgetw : mapGetLive (putList (mapCreateLive c hsh cmp : Map K V) ps) k = w :=
      hget
    refine ⟨hgetw, ?_, ?_⟩
    · have hhk := hasKey_putList ps (mapCreateLive c hsh cmp) hc0 heq0 hh0 k
      rw [hcc, hlast] at hhk
      have hsome : hasKey (putList (mapCreateLive c hsh cmp : Map K V) ps) k = true := by
        rw [hhk, hasKey_create]
        rfl
      have hex := (lookup_isSome_iff hpF hhF k).1 hsome
      have h1 := countP_matches hpF huF heqF hhF k hex
      rw [hF2] at h1
      exact h1
    · intro e he hm
      have hm' : (putList (mapCreateLive c hsh cmp : Map K V) ps).compare e.key k = 0 := by
        rw [hF2]; exact hm
      have hgete := mapGetLive_eq_of_mem hpF huF heqF hhF he hm'
      exact hgete.symm.trans hgetw
  · have hseen : ∀ k : K, hasKey (mapCreateLive c hsh cmp : Map K V) k =
        ([] : List K).any
          (fun s => (mapCreateLive c hsh cmp : Map K V).compare k s = 0) := by
      intro k
      rw [hasKey_create]
      rfl
    have hsz := size_putList ps (mapCreateLive c hsh cmp) [] hc0 heq0 hh0 hseen
    rw [hsz]
    show 0 + newKeyCount cmp [] (ps.map Prod.fst) = newKeyCount cmp [] (ps.map Prod.fst)
    rw [Nat.zero_add]

theorem put_sequence_correct_witness :
    mapGetLive (putList (mapCreateLive 2 natHash natCmp : Map Nat Nat)
      [(1, some 10), (1, some 20), (3, some 30)]) 1 = some 20 ∧
    (putList (mapCreateLive 2 natHash natCmp : Map Nat Nat)
      [(1, some 10), (1, some 20), (3, some 30)]).entries.countP
        (fun e => natCmp e.key 1 = 0) = 1 ∧
    (putList (mapCreateLive 2 natHash natCmp : Map Nat Nat)
      [(1, some 10), (1, some 20), (3, some 30)]).size = 2 := by
  have h := put_sequence_correct 2 natHash natCmp
    [(1, some 10), (1, some 20), (3, some 30)]
    (by decide) natCmpEquiv natHashConsistent
  obtain ⟨hget, hcount, -⟩ := h.1 1 (some 20) (by decide)
  refine ⟨hget, hcount, ?_⟩
  rw [h.2]
  decide


end CMap
